import Mathlib

/- Verification development for the kidnap bundler (src/index.ts).

   The source is a single TypeScript file implementing a module bundler:
   path resolution (localModulePath, npmModulePath), a worklist-based
   dependency-graph builder (compile + the while loop over `files`),
   and a code generator (generate) that emits a runtime loader plus a
   module table.

   Shallow embedding conventions:
   - JS strings are modelled as `Str := List Char`; absolute paths as
     lists of path components (`Path := List Str`), the empty list being
     the file-system root "/".
   - The file system is a finite map from paths to parsed source files
     (the output of the external TypeScript parser per file), plus
     package manifests and a set of directories.
   - `process.exit(1)` inside `error(...)` is modelled as an
     `Except BuildErr` error result; the outer `Option` layer marks
     non-termination (the fuel of the worklist loop running out, or the
     ancestor walk of npmModulePath failing to exit).
   - External collaborators (TypeScript parser, transpiler, type
     checker, JSON.parse) are modelled by their observable behaviour:
     a file's parse result and transpiled body are stored in the file
     system model, the type checker is an arbitrary diagnostics
     function, and JSON.parse is modelled for string payloads. -/

set_option maxRecDepth 10000

namespace Kidnap

abbrev Str : Type := List Char

abbrev Path : Type := List Str

/-- Association-list lookup; models `Map.get` of a JS `Map` (insertion
order, first match). -/
def lookupA {α β : Type} [DecidableEq α] : List (α × β) → α → Option β
  | [], _ => none
  | (k, v) :: rest, a => if a = k then some v else lookupA rest a

/-- Models `Map.set`: replace in place when the key exists, else append. -/
def mapSet {α β : Type} [DecidableEq α] : List (α × β) → α → β → List (α × β)
  | [], k, v => [(k, v)]
  | (k0, v0) :: rest, k, v =>
    if k = k0 then (k, v) :: rest else (k0, v0) :: mapSet rest k v

/-- Split a string on the path separator. -/
def splitSlash : Str → List Str
  | [] => [[]]
  | c :: r =>
    if c = '/' then [] :: splitSlash r
    else
      match splitSlash r with
      | [] => [[c]]
      | s :: ss => (c :: s) :: ss

/-- Apply the segments of a relative specifier to a base directory, the
way node's `path.resolve` normalises them: empty and `.` segments are
skipped, `..` pops one component, others are appended. -/
def applySegs : Path → List Str → Path
  | p, [] => p
  | p, seg :: rest =>
    if seg = [] ∨ seg = ['.'] then applySegs p rest
    else if seg = ['.', '.'] then applySegs p.dropLast rest
    else applySegs (p ++ [seg]) rest

/-- Models `resolve(base, spec)`: a spec starting with '/' is absolute,
otherwise it is applied to the base directory. -/
def resolveSpec (base : Path) (spec : Str) : Path :=
  if spec.head? = some '/' then applySegs [] (splitSlash spec)
  else applySegs base (splitSlash spec)

/-- String concatenation `pathString + ext` acts on the last component
of the component-list representation. -/
def appendLast : Path → Str → Path
  | [], e => [e]
  | [a], e => [a ++ e]
  | a :: b :: rest, e => a :: appendLast (b :: rest) e

/-- Models `absPath.endsWith('.ts')`. On the joined path string this is
equivalent to the last component ending with ".ts", because ".ts"
contains no separator. -/
def endsTs (p : Path) : Bool :=
  match p.getLast? with
  | some seg => decide ((".ts").data <:+ seg)
  | none => false

/-- A top-level AST node as seen by `source.forEachChild`: either an
ImportDeclaration, carrying the raw source text of its module specifier
(`importDecl.moduleSpecifier.getText(source)`, quotes included), or any
other node kind. -/
inductive Node where
  | importDecl (text : Str)
  | other
deriving DecidableEq

/-- A source file as delivered by the external parser/transpiler: its
top-level nodes and `ts.transpileModule(content, ...).outputText`. -/
structure SrcFile where
  nodes : List Node
  transpiled : Str
deriving DecidableEq

/-- A parsed package.json: its `module` and `main` fields. -/
structure Manifest where
  module : Option Str
  main : Option Str
deriving DecidableEq

/-- The file-system state a build runs against. -/
structure FS where
  files : List (Path × SrcFile)
  manifests : List (Path × Manifest)
  dirs : List Path
deriving DecidableEq

/-- Models `isFile` (exists + stat isFile). Package manifests are files. -/
def FS.isFile (fs : FS) (p : Path) : Bool :=
  (lookupA fs.files p).isSome || (lookupA fs.manifests p).isSome

/-- Models `isDir` (exists + stat isDirectory). -/
def FS.isDir (fs : FS) (p : Path) : Bool := decide (p ∈ fs.dirs)

/-- The fatal failure modes of the build; each one is `error(...)` or an
uncaught exception in the source, i.e. a non-zero process exit. -/
inductive BuildErr where
  | moduleNotFound (spec : Str)
  | unsupportedImport (text : Str)
  | ioError (p : Path)
  | typeCheckError
deriving DecidableEq

def tsIndex : Str := ("index.ts").data

/-- The base directory a specifier is resolved against: `dirname(from)`
when a `from` file is given, the working directory otherwise. -/
def resolveBase (cwd : Path) (fromFile : Option Path) : Path :=
  match fromFile with
  | some f => f.dropLast
  | none => cwd

/-- The first candidate of `localModulePath`: the resolved path with
'.ts' appended unless it already ends with '.ts' (source line 35). -/
def tsCandidate (base : Path) (spec : Str) : Path :=
  let absPath := resolveSpec base spec
  if endsTs absPath then absPath else appendLast absPath ((".ts").data)

/-- Models `localModulePath` (source lines 33-38): try the '.ts'
candidate first, then `index.ts` inside the directory, else fail. -/
def localModulePath (fs : FS) (cwd : Path) (path : Str) (fromFile : Option Path) :
    Except BuildErr Path :=
  let absPath := resolveSpec (resolveBase cwd fromFile) path
  let tsPath := tsCandidate (resolveBase cwd fromFile) path
  let indexPath := absPath ++ [tsIndex]
  if fs.isFile tsPath then .ok tsPath
  else if fs.isDir absPath && fs.isFile indexPath then .ok indexPath
  else .error (.moduleNotFound path)

def nmSeg : Str := ("node_modules").data

/-- The ancestor walk of `npmModulePath` (source lines 43-46), with the
exact step of the source loop made explicit and guarded by fuel:
`while (!isDir(resolve(projRoot, 'node_modules'))) projRoot = dirname(projRoot)`.
`dirname` of the root is the root itself, so the source loop can spin
forever; `none` means the fuel ran out without the loop exiting. -/
def npmWalk (fs : FS) : Nat → Path → Option Path
  | 0, _ => none
  | n + 1, p => if fs.isDir (p ++ [nmSeg]) then some p else npmWalk fs n p.dropLast

/-- Total account of the same walk: the loop exits at the deepest
ancestor (checking p itself first) that contains node_modules, and
never exits when no ancestor does (`none` = the source diverges). -/
def findAux (fs : FS) : List Str → Option Path
  | [] => if fs.isDir [nmSeg] then some [] else none
  | s :: rest =>
    let p := (s :: rest).reverse
    if fs.isDir (p ++ [nmSeg]) then some p else findAux fs rest

def findProjRoot (fs : FS) (p : Path) : Option Path := findAux fs p.reverse

/-- JS truthiness of an optional string: missing and empty are falsy. -/
def truthy : Option Str → Option Str
  | some [] => none
  | some s => some s
  | none => none

/-- Models `require(pkgJson).module || require(pkgJson).main` followed by
the `if (main)` truthiness check. -/
def jsOr (a b : Option Str) : Option Str :=
  match truthy a with
  | some s => some s
  | none => truthy b

/-- Models `npmModulePath` (source lines 42-69). The manifest branch
returns `resolve(pkgRoot, main)` without any isFile check. The outer
`none` marks divergence of the ancestor walk. -/
def npmModulePath (fs : FS) (pkg : Str) (fromFile : Path) :
    Option (Except BuildErr Path) :=
  match findProjRoot fs fromFile.dropLast with
  | none => none
  | some projRoot =>
    let pkgRoot := applySegs (projRoot ++ [nmSeg]) (splitSlash pkg)
    let jsPath := appendLast pkgRoot ((".js").data)
    if fs.isFile jsPath then some (.ok jsPath)
    else
      let pkgJson := pkgRoot ++ [("package.json").data]
      let man := (lookupA fs.manifests pkgJson).getD ⟨none, none⟩
      let viaManifest : Option Path :=
        if fs.isFile pkgJson then
          match jsOr man.module man.main with
          | some m => some (resolveSpec pkgRoot m)
          | none => none
        else none
      match viaManifest with
      | some p => some (.ok p)
      | none =>
        let indexPath := pkgRoot ++ [("index.js").data]
        if fs.isFile indexPath then some (.ok indexPath)
        else some (.error (.moduleNotFound pkg))

/-- One JSON escape character. -/
def jsonEscChar : Char → Option Char
  | '"' => some '"'
  | '\\' => some '\\'
  | '/' => some '/'
  | 'b' => some (Char.ofNat 8)
  | 'f' => some (Char.ofNat 12)
  | 'n' => some '\n'
  | 'r' => some (Char.ofNat 13)
  | 't' => some '\t'
  | _ => none

def hexVal (c : Char) : Option Nat :=
  if '0' ≤ c ∧ c ≤ '9' then some (c.toNat - ('0').toNat)
  else if 'a' ≤ c ∧ c ≤ 'f' then some (c.toNat - ('a').toNat + 10)
  else if 'A' ≤ c ∧ c ≤ 'F' then some (c.toNat - ('A').toNat + 10)
  else none

/-- Body of a JSON string after the opening quote: returns the decoded
content and the rest after the closing quote. Raw control characters
are rejected, escapes are decoded (\\u only for valid scalar values;
the claims never exercise surrogates). -/
def jsonStrAux : Str → Option (Str × Str)
  | [] => none
  | '"' :: rest => some ([], rest)
  | '\\' :: rest =>
    match rest with
    | [] => none
    | 'u' :: h1 :: h2 :: h3 :: h4 :: rest2 =>
      match hexVal h1, hexVal h2, hexVal h3, hexVal h4 with
      | some a, some b, some c, some d =>
        let n := ((a * 16 + b) * 16 + c) * 16 + d
        if Nat.isValidChar n then
          match jsonStrAux rest2 with
          | some (s, r) => some (Char.ofNat n :: s, r)
          | none => none
        else none
      | _, _, _, _ => none
    | e :: rest2 =>
      match jsonEscChar e with
      | some d =>
        match jsonStrAux rest2 with
        | some (s, r) => some (d :: s, r)
        | none => none
      | none => none
  | c :: rest =>
    if c.toNat < 32 then none
    else
      match jsonStrAux rest with
      | some (s, r) => some (c :: s, r)
      | none => none

/-- Models `JSON.parse(moduleSpecifier)` restricted to string results:
succeeds exactly when the whole text is one double-quoted JSON string.
Any other text makes JSON.parse throw (or yield a non-string on which
`dep.startsWith` then throws), an uncaught fatal exception. -/
def jsonStr (s : Str) : Option Str :=
  match s with
  | '"' :: rest =>
    match jsonStrAux rest with
    | some (content, []) => some content
    | _ => none
  | _ => none

/-- A compiled module record (source type `Module`). -/
structure Module where
  id : Nat
  file : Path
  deps : List (Str × Nat)
  transpiled : Str
deriving DecidableEq

/-- The mutable build state: the identity counter `moduleId`, the
path-to-identity map `moduleToId` (insertion order), and the pending
worklist `files`. -/
structure BState where
  moduleId : Nat
  moduleToId : List (Path × Nat)
  files : List Path
deriving DecidableEq

/-- Specifier dispatch inside `compile` (source lines 115-119):
relative specifiers (starting with '.') go to localModulePath, bare
names to npmModulePath. -/
def resolveDep (fs : FS) (cwd : Path) (dep : Str) (file : Path) :
    Option (Except BuildErr Path) :=
  if dep.head? = some '.' then some (localModulePath fs cwd dep (some file))
  else npmModulePath fs dep file

/-- The `source.forEachChild` scan of `compile` (source lines 106-128):
for each ImportDeclaration, JSON.parse the specifier text, resolve it,
register a newly discovered path with the next identity and push it on
the worklist, and record specifier-to-identity in `deps`. -/
def scanNodes (fs : FS) (cwd : Path) (file : Path) :
    List Node → List (Str × Nat) → BState →
    Option (Except BuildErr (List (Str × Nat) × BState))
  | [], deps, st => some (.ok (deps, st))
  | Node.other :: rest, deps, st => scanNodes fs cwd file rest deps st
  | Node.importDecl text :: rest, deps, st =>
    match jsonStr text with
    | none => some (.error (.unsupportedImport text))
    | some dep =>
      match resolveDep fs cwd dep file with
      | none => none
      | some (.error e) => some (.error e)
      | some (.ok depPath) =>
        match lookupA st.moduleToId depPath with
        | some depId => scanNodes fs cwd file rest (mapSet deps dep depId) st
        | none =>
          scanNodes fs cwd file rest (mapSet deps dep (st.moduleId + 1))
            ⟨st.moduleId + 1, st.moduleToId ++ [(depPath, st.moduleId + 1)],
              st.files ++ [depPath]⟩

/-- Models `compile(file)` (source lines 99-140): read the file (a
missing file makes readFileSync throw), scan its imports, and return
the Module record with the file's registered identity and transpiled
body. The source asserts presence of the identity with `get(file)!`;
the worklist invariant guarantees it, `getD 0` is the total rendering. -/
def compileFile (fs : FS) (cwd : Path) (st : BState) (file : Path) :
    Option (Except BuildErr (Module × BState)) :=
  match lookupA fs.files file with
  | none => some (.error (.ioError file))
  | some src =>
    match scanNodes fs cwd file src.nodes [] st with
    | none => none
    | some (.error e) => some (.error e)
    | some (.ok (deps, st')) =>
      some (.ok (⟨(lookupA st.moduleToId file).getD 0, file, deps, src.transpiled⟩, st'))

/-- The driver loop (source lines 144-147):
`while ((file = files.shift())) modules.push(compile(file))`.
Returns the module list and the final registry; fuel exhaustion is
`none`. -/
def buildLoop (fs : FS) (cwd : Path) :
    Nat → BState → List Module →
    Option (Except BuildErr (List Module × List (Path × Nat)))
  | 0, _, _ => none
  | fuel + 1, st, acc =>
    match st.files with
    | [] => some (.ok (acc, st.moduleToId))
    | f :: rest =>
      match compileFile fs cwd ⟨st.moduleId, st.moduleToId, rest⟩ f with
      | none => none
      | some (.error e) => some (.error e)
      | some (.ok (m, st')) => buildLoop fs cwd fuel st' (acc ++ [m])

/-- The whole build (source lines 40, 72-97, 142-147): resolve the
entry file, run the external type check (any diagnostic aborts), then
run the worklist loop from `moduleToId = {entry: 0}`, `files = [entry]`. -/
def runBuild (fs : FS) (cwd : Path) (check : Path → List Str) (fuel : Nat)
    (input : Str) :
    Option (Except BuildErr (List Module × List (Path × Nat))) :=
  match localModulePath fs cwd input none with
  | .error e => some (.error e)
  | .ok entry =>
    if check entry ≠ [] then some (.error .typeCheckError)
    else buildLoop fs cwd fuel ⟨0, [(entry, 0)], [entry]⟩ []

/-- The per-module section of `generate` (source lines 173-183): one
entry per module, in the order of the `modules` list, keyed by its
identity, holding the factory-wrapped transpiled body and the
specifier-to-identity table. -/
def moduleTable (mods : List Module) : List (Nat × Str × List (Str × Nat)) :=
  mods.map fun m => (m.id, m.transpiled, m.deps)

/-- The artifact the process writes (source line 193): produced only
when the whole build pipeline succeeded. -/
def writtenOutput (fs : FS) (cwd : Path) (check : Path → List Str) (fuel : Nat)
    (input : Str) : Option (List (Nat × Str × List (Str × Nat))) :=
  match runBuild fs cwd check fuel input with
  | some (.ok (mods, _)) => some (moduleTable mods)
  | _ => none

/-- A resolved import edge: file p's source has an import whose literal
text JSON-parses to dep and resolves to q. -/
def ImportEdge (fs : FS) (cwd : Path) (p q : Path) : Prop :=
  ∃ src text dep, lookupA fs.files p = some src ∧
    Node.importDecl text ∈ src.nodes ∧
    jsonStr text = some dep ∧ resolveDep fs cwd dep p = some (.ok q)

/-- Transitive reachability through resolved import edges from the
entry file. -/
inductive Reaches (fs : FS) (cwd : Path) (entry : Path) : Path → Prop where
  | refl : Reaches fs cwd entry entry
  | step {p q : Path} : Reaches fs cwd entry p → ImportEdge fs cwd p q →
      Reaches fs cwd entry q

/- ------------------------------------------------------------------
   The emitted runtime loader (source lines 152-169):

     var executedModules = \x7b\x7d;
     (function executeModule(id) \x7b
       if (executedModules[id]) return executedModules[id];
       var mod = modules[id];
       var localRequire = function (path) \x7b
         return executeModule(mod[1][path]);
       \x7d;
       var module = \x7b exports: \x7b\x7d \x7d;
       executedModules[id] = module.exports;
       mod[0](localRequire, module, module.exports);
       return module.exports;
     \x7d)(0);

   Export objects are modelled by allocation identity (a counter); a
   factory body is abstracted to the sequence of loader-visible actions
   it performs: calling require on a specifier, or reassigning
   module.exports to a fresh object. Every cached value is an object,
   hence truthy, so the `if (executedModules[id])` test is cache
   presence. The state additionally logs which factories started and
   every value executeModule returned, in order.
   ------------------------------------------------------------------ -/

inductive Action where
  | require (spec : Str)
  | replaceExports
deriving DecidableEq

structure RModule where
  factory : List Action
  deps : List (Str × Nat)
deriving DecidableEq

abbrev Bundle : Type := List (Nat × RModule)

structure RState where
  cache : List (Nat × Nat)
  nextObj : Nat
  started : List Nat
  rets : List (Nat × Nat)
deriving DecidableEq

def RState.init : RState := ⟨[], 0, [], []⟩

/-- Run a factory body: `cur` is the current value of `module.exports`
(returned at the end, models `return module.exports`), `exec1` executes
a required module identity. A specifier missing from the dependency
table, like an identity missing from the bundle, crashes the loader
(modelled `none`). -/
def runActs (exec1 : RState → Nat → Option (Nat × RState)) (deps : List (Str × Nat)) :
    List Action → Nat → RState → Option (Nat × RState)
  | [], cur, st => some (cur, st)
  | Action.require spec :: rest, cur, st =>
    match lookupA deps spec with
    | none => none
    | some tid =>
      match exec1 st tid with
      | none => none
      | some (_, st') => runActs exec1 deps rest cur st'
  | Action.replaceExports :: rest, _, st =>
    runActs exec1 deps rest st.nextObj ⟨st.cache, st.nextObj + 1, st.started, st.rets⟩

/-- One unfolding of executeModule: return the cached export if
present; otherwise allocate a fresh export object, cache it BEFORE
running the factory (source line 164), run the factory, and return the
final `module.exports`. -/
def execModuleF (B : Bundle) (exec1 : RState → Nat → Option (Nat × RState))
    (st : RState) (id : Nat) : Option (Nat × RState) :=
  match lookupA st.cache id with
  | some obj => some (obj, ⟨st.cache, st.nextObj, st.started, st.rets ++ [(id, obj)]⟩)
  | none =>
    match lookupA B id with
    | none => none
    | some m =>
      let e := st.nextObj
      match runActs exec1 m.deps m.factory e
          ⟨st.cache ++ [(id, e)], e + 1, st.started ++ [id], st.rets⟩ with
      | none => none
      | some (cur, st2) =>
        some (cur, ⟨st2.cache, st2.nextObj, st2.started, st2.rets ++ [(id, cur)]⟩)

/-- executeModule with fuel bounding the recursion depth. -/
def execModule (B : Bundle) : Nat → RState → Nat → Option (Nat × RState)
  | 0 => fun _ _ => none
  | n + 1 => execModuleF B (execModule B n)

/- Concrete instances used by the theorems below. -/

/-- Two modules importing each other: the cycle scenario of the spec. -/
def cycleBundle : Bundle :=
  [(0, ⟨[Action.require (("b").data)], [(("b").data, 1)]⟩),
   (1, ⟨[Action.require (("a").data)], [(("a").data, 0)]⟩)]

def cycleFinalSt : RState := ⟨[(0, 0), (1, 1)], 2, [0, 1], [(0, 0), (1, 1), (0, 0)]⟩

/-- Module 0 requires module 1 twice; module 1 reassigns module.exports. -/
def replBundle : Bundle :=
  [(0, ⟨[Action.require (("m").data), Action.require (("m").data)], [(("m").data, 1)]⟩),
   (1, ⟨[Action.replaceExports], []⟩)]

def replFinalSt : RState := ⟨[(0, 0), (1, 1)], 3, [0, 1], [(1, 2), (1, 1), (0, 0)]⟩

/-- A type check reporting no diagnostics. -/
def noCheck : Path → List Str := fun _ => []

/-- Entry file main.ts importing "./b" (double-quoted), plus b.ts. -/
def mainTs : Path := [("main.ts").data]

def bTs : Path := [("b.ts").data]

def srcA : SrcFile := ⟨[Node.importDecl (("\"./b\"").data)], ("tA").data⟩

def srcB : SrcFile := ⟨[], ("tB").data⟩

def fsA : FS := ⟨[(mainTs, srcA), (bTs, srcB)], [], []⟩

/-- The modules and registry the fsA build produces. -/
def modsA : List Module :=
  [⟨0, mainTs, [(("./b").data, 1)], ("tA").data⟩,
   ⟨1, bTs, [], ("tB").data⟩]

def regA : List (Path × Nat) := [(mainTs, 0), (bTs, 1)]

/-- Entry whose single import is written with single quotes: a literal
string in the source language whose text is not JSON. -/
def fsQ : FS :=
  ⟨[(mainTs, ⟨[Node.importDecl (("'./b'").data)], ("tQ").data⟩), (bTs, srcB)], [], []⟩

/-- Entry importing bare name "pkg"; the package manifest names a file
that does not exist. -/
def missingJs : Path := [("node_modules").data, ("pkg").data, ("missing.js").data]

def pkgJsonPath : Path := [("node_modules").data, ("pkg").data, ("package.json").data]

def fsM : FS :=
  ⟨[(mainTs, ⟨[Node.importDecl (("\"pkg\"").data)], ("tM").data⟩)],
   [(pkgJsonPath, ⟨none, some (("missing.js").data)⟩)],
   [[("node_modules").data], [("node_modules").data, ("pkg").data]]⟩

/-- Both src/foo.ts and src/foo/index.ts exist. -/
def fooTs : Path := [("src").data, ("foo.ts").data]

def fooIndexTs : Path := [("src").data, ("foo").data, ("index.ts").data]

def fs6 : FS :=
  ⟨[(fooTs, srcB), (fooIndexTs, srcB)], [],
   [[("src").data], [("src").data, ("foo").data]]⟩

/-- A file system with no directories at all: no ancestor ever contains
node_modules. -/
def fs4 : FS := ⟨[], [], []⟩

def p4 : Path := [("a").data]

/-- The loader invariant: no factory is ever started twice, and every
started module has a cache entry (inserted before its factory ran). -/
def GoodSt (st : RState) : Prop :=
  st.started.Nodup ∧ ∀ i ∈ st.started, (lookupA st.cache i).isSome

/-- Cache entries are never overwritten or dropped. -/
def CacheMono (st st' : RState) : Prop :=
  ∀ k v, lookupA st.cache k = some v → lookupA st'.cache k = some v

/-- Invariant of the worklist loop: `processed` is the list of files
already compiled, in order. The registry's identities are exactly
0..n-1 in insertion order, its keys are distinct, processed files
followed by the pending queue spell out the registry keys in discovery
order, every registered path is reachable from the entry, and every
resolved import edge out of a processed file has a registered target. -/
structure Inv (fs : FS) (cwd : Path) (entry : Path) (processed : List Path)
    (st : BState) : Prop where
  ids : st.moduleToId.map Prod.snd = List.range st.moduleToId.length
  nodupKeys : (st.moduleToId.map Prod.fst).Nodup
  counter : st.moduleId + 1 = st.moduleToId.length
  order : processed ++ st.files = st.moduleToId.map Prod.fst
  reach : ∀ p ∈ st.moduleToId.map Prod.fst, Reaches fs cwd entry p
  closed : ∀ p ∈ processed, ∀ q, ImportEdge fs cwd p q →
    q ∈ st.moduleToId.map Prod.fst

/-- Invariant of the accumulated module list. -/
structure AccInv (fs : FS) (cwd : Path) (acc : List Module)
    (processed : List Path) (st : BState) : Prop where
  filesEq : acc.map Module.file = processed
  idsEq : acc.map Module.id = List.range acc.length
  depsOk : ∀ m ∈ acc, ∀ s i, (s, i) ∈ m.deps →
    ∃ q, resolveDep fs cwd s m.file = some (.ok q) ∧
      lookupA st.moduleToId q = some i
  bodyOk : ∀ m ∈ acc, ∃ src, lookupA fs.files m.file = some src ∧
    m.transpiled = src.transpiled

/-- Initial build state for the fsQ example. -/
def st0A : BState := ⟨0, [(mainTs, 0)], []⟩

/-- A loader state with one completed module in cache. -/
def stW : RState := ⟨[(5, 7)], 8, [], []⟩

def stW' : RState := ⟨[(5, 7)], 8, [], [(5, 7)]⟩

/- ------------------------- helper lemmas ------------------------- -/

theorem lookupA_eq_none_iff {α β : Type} [DecidableEq α]
    (l : List (α × β)) (k : α) : lookupA l k = none ↔ k ∉ l.map Prod.fst := by
  induction l with
  | nil => simp [lookupA]
  | cons hd t ih =>
    obtain ⟨k0, v0⟩ := hd
    by_cases hk : k = k0
    · subst hk; simp [lookupA]
    · simp [lookupA, hk, ih]

theorem lookupA_append_some {α β : Type} [DecidableEq α]
    {l : List (α × β)} {k : α} {v : β} (e : List (α × β))
    (h : lookupA l k = some v) : lookupA (l ++ e) k = some v := by
  induction l with
  | nil => simp [lookupA] at h
  | cons hd t ih =>
    obtain ⟨k0, v0⟩ := hd
    by_cases hk : k = k0
    · simp [lookupA, hk] at h ⊢; exact h
    · simp [lookupA, hk] at h ⊢; exact ih h

theorem lookupA_append_none {α β : Type} [DecidableEq α]
    {l : List (α × β)} {k : α} (e : List (α × β))
    (h : lookupA l k = none) : lookupA (l ++ e) k = lookupA e k := by
  induction l with
  | nil => simp [lookupA]
  | cons hd t ih =>
    obtain ⟨k0, v0⟩ := hd
    by_cases hk : k = k0
    · simp [lookupA, hk] at h
    · simp [lookupA, hk] at h ⊢; exact ih h

theorem lookupA_isSome_append {α β : Type} [DecidableEq α]
    {l : List (α × β)} {k : α} (e : List (α × β))
    (h : (lookupA l k).isSome = true) : (lookupA (l ++ e) k).isSome = true := by
  obtain ⟨v, hv⟩ := Option.isSome_iff_exists.mp h
  rw [lookupA_append_some e hv]
  rfl

theorem lookupA_mem {α β : Type} [DecidableEq α]
    {l : List (α × β)} {k : α} {v : β}
    (h : lookupA l k = some v) : (k, v) ∈ l := by
  induction l with
  | nil => simp [lookupA] at h
  | cons hd t ih =>
    obtain ⟨k0, v0⟩ := hd
    by_cases hk : k = k0
    · subst hk; simp [lookupA] at h; simp [h]
    · simp [lookupA, hk] at h
      exact List.mem_cons_of_mem _ (ih h)

theorem lookupA_of_mem_nodup {α β : Type} [DecidableEq α]
    {l : List (α × β)} {k : α} {v : β}
    (hnd : (l.map Prod.fst).Nodup) (hm : (k, v) ∈ l) : lookupA l k = some v := by
  induction l with
  | nil => simp at hm
  | cons hd t ih =>
    obtain ⟨k0, v0⟩ := hd
    simp only [List.map_cons, List.nodup_cons] at hnd
    rcases List.mem_cons.mp hm with h1 | h2
    · injection h1 with h1a h1b
      simp [lookupA, h1a, h1b]
    · have hk : k ≠ k0 := by
        intro hkk
        subst hkk
        exact hnd.1 (List.mem_map.mpr ⟨(k, v), h2, rfl⟩)
      simp [lookupA, hk]
      exact ih hnd.2 h2

theorem mem_mapSet {α β : Type} [DecidableEq α]
    {l : List (α × β)} {k a : α} {v b : β}
    (h : (a, b) ∈ mapSet l k v) : (a, b) ∈ l ∨ (a = k ∧ b = v) := by
  induction l with
  | nil =>
    simp [mapSet] at h
    exact Or.inr ⟨h.1, h.2⟩
  | cons hd t ih =>
    obtain ⟨k0, v0⟩ := hd
    by_cases hk : k = k0
    · subst hk
      simp only [mapSet, if_pos rfl] at h
      rcases List.mem_cons.mp h with h1 | h2
      · injection h1 with h1a h1b
        exact Or.inr ⟨h1a, h1b⟩
      · exact Or.inl (List.mem_cons_of_mem _ h2)
    · simp only [mapSet, if_neg hk] at h
      rcases List.mem_cons.mp h with h1 | h2
      · exact Or.inl (h1 ▸ List.mem_cons_self _ _)
      · rcases ih h2 with h3 | h3
        · exact Or.inl (List.mem_cons_of_mem _ h3)
        · exact Or.inr h3

theorem pref_dropLast {α : Type} : ∀ (l : List α), l.dropLast <+: l
  | [] => ⟨[], rfl⟩
  | [a] => ⟨[a], rfl⟩
  | a :: b :: r => by
    obtain ⟨t, ht⟩ := pref_dropLast (b :: r)
    exact ⟨t, by rw [show (a :: b :: r).dropLast = a :: (b :: r).dropLast from rfl,
      List.cons_append, ht]⟩

/- ---------------------- runtime loader lemmas -------------------- -/

theorem cacheMono_refl (st : RState) : CacheMono st st := fun _ _ h => h

theorem cacheMono_trans {a b c : RState} (h1 : CacheMono a b)
    (h2 : CacheMono b c) : CacheMono a c := fun k v h => h2 k v (h1 k v h)

theorem runActs_mono {exec1 : RState → Nat → Option (Nat × RState)}
    {deps : List (Str × Nat)}
    (hx : ∀ st id r st', exec1 st id = some (r, st') → CacheMono st st') :
    ∀ {acts : List Action} {cur : Nat} {st : RState} {r : Nat} {st' : RState},
      runActs exec1 deps acts cur st = some (r, st') → CacheMono st st' := by
  intro acts
  induction acts with
  | nil =>
    intro cur st r st' h
    simp [runActs] at h
    rw [← h.2]
    exact cacheMono_refl st
  | cons a rest ih =>
    intro cur st r st' h
    cases a with
    | require spec =>
      simp only [runActs] at h
      cases hl : lookupA deps spec with
      | none => simp only [hl] at h; exact Option.noConfusion h
      | some tid =>
        simp only [hl] at h
        cases he : exec1 st tid with
        | none => simp only [he] at h; exact Option.noConfusion h
        | some pr =>
          obtain ⟨o, st1⟩ := pr
          simp only [he] at h
          exact cacheMono_trans (hx st tid o st1 he) (ih h)
    | replaceExports =>
      simp only [runActs] at h
      have h2 := ih h
      exact cacheMono_trans (fun k v hv => hv) h2

theorem execModule_mono (B : Bundle) :
    ∀ (n : Nat) {st : RState} {id r : Nat} {st' : RState},
      execModule B n st id = some (r, st') → CacheMono st st' := by
  intro n
  induction n with
  | zero => intro st id r st' h; simp [execModule] at h
  | succ n ih =>
    intro st id r st' h
    simp only [execModule, execModuleF] at h
    cases hc : lookupA st.cache id with
    | some obj =>
      simp only [hc] at h
      simp at h
      rw [← h.2]
      exact fun k v hv => hv
    | none =>
      simp only [hc] at h
      cases hm : lookupA B id with
      | none => simp only [hm] at h; exact Option.noConfusion h
      | some m =>
        simp only [hm] at h
        cases hr : runActs (execModule B n) m.deps m.factory st.nextObj
            ⟨st.cache ++ [(id, st.nextObj)], st.nextObj + 1,
              st.started ++ [id], st.rets⟩ with
        | none => simp only [hr] at h; exact Option.noConfusion h
        | some pr =>
          obtain ⟨cur, st2⟩ := pr
          simp only [hr] at h
          simp at h
          have m1 : CacheMono st ⟨st.cache ++ [(id, st.nextObj)],
              st.nextObj + 1, st.started ++ [id], st.rets⟩ :=
            fun k v hv => lookupA_append_some _ hv
          have m2 := runActs_mono (fun s i o s' hh => ih hh) hr
          rw [← h.2]
          exact cacheMono_trans m1 (cacheMono_trans m2 (fun k v hv => hv))

theorem runActs_good {exec1 : RState → Nat → Option (Nat × RState)}
    {deps : List (Str × Nat)}
    (hx : ∀ st id r st', GoodSt st → exec1 st id = some (r, st') → GoodSt st') :
    ∀ {acts : List Action} {cur : Nat} {st : RState} {r : Nat} {st' : RState},
      GoodSt st → runActs exec1 deps acts cur st = some (r, st') → GoodSt st' := by
  intro acts
  induction acts with
  | nil =>
    intro cur st r st' hg h
    simp [runActs] at h
    rw [← h.2]
    exact hg
  | cons a rest ih =>
    intro cur st r st' hg h
    cases a with
    | require spec =>
      simp only [runActs] at h
      cases hl : lookupA deps spec with
      | none => simp only [hl] at h; exact Option.noConfusion h
      | some tid =>
        simp only [hl] at h
        cases he : exec1 st tid with
        | none => simp only [he] at h; exact Option.noConfusion h
        | some pr =>
          obtain ⟨o, st1⟩ := pr
          simp only [he] at h
          exact ih (hx st tid o st1 hg he) h
    | replaceExports =>
      simp only [runActs] at h
      exact ih (show GoodSt ⟨st.cache, st.nextObj + 1, st.started, st.rets⟩ from hg) h

theorem execModule_good (B : Bundle) :
    ∀ (n : Nat) {st : RState} {id r : Nat} {st' : RState},
      GoodSt st → execModule B n st id = some (r, st') → GoodSt st' := by
  intro n
  induction n with
  | zero => intro st id r st' hg h; simp [execModule] at h
  | succ n ih =>
    intro st id r st' hg h
    simp only [execModule, execModuleF] at h
    cases hc : lookupA st.cache id with
    | some obj =>
      simp only [hc] at h
      simp at h
      rw [← h.2]
      exact ⟨hg.1, fun i hi => hg.2 i hi⟩
    | none =>
      simp only [hc] at h
      cases hm : lookupA B id with
      | none => simp only [hm] at h; exact Option.noConfusion h
      | some m =>
        simp only [hm] at h
        have hid : id ∉ st.started := by
          intro hmem
          have := hg.2 id hmem
          rw [hc] at this
          simp at this
        have hg1 : GoodSt ⟨st.cache ++ [(id, st.nextObj)], st.nextObj + 1,
            st.started ++ [id], st.rets⟩ := by
          constructor
          · exact hg.1.append (List.nodup_singleton id)
              (fun a ha hb => by simp at hb; exact hid (hb ▸ ha))
          · intro i hi
            rcases List.mem_append.mp hi with h1 | h1
            · exact lookupA_isSome_append _ (hg.2 i h1)
            · simp at h1
              subst h1
              rw [lookupA_append_none _ hc]
              simp [lookupA]
        cases hr : runActs (execModule B n) m.deps m.factory st.nextObj
            ⟨st.cache ++ [(id, st.nextObj)], st.nextObj + 1,
              st.started ++ [id], st.rets⟩ with
        | none => simp only [hr] at h; exact Option.noConfusion h
        | some pr =>
          obtain ⟨cur, st2⟩ := pr
          simp only [hr] at h
          simp at h
          have hg2 := runActs_good (fun s i o s' hgs hh => ih hgs hh) hg1 hr
          rw [← h.2]
          exact ⟨hg2.1, fun i hi => hg2.2 i hi⟩

/- -------------------------- claims C3, C9 ------------------------ -/

/-- Claim C3: the emitted loader caches a module's fresh export
container before invoking its factory, so every factory runs at most
once (the `started` log of any completed execution from the initial
state has no duplicates, and every started module has a cache entry),
and the two-module cycle terminates: executing `cycleBundle` with fuel
3 completes, runs each factory exactly once (`started = [0, 1]`), and
the cyclic require inside module 1 returns object 0 — the in-progress
export container of module 0, cached before module 0's factory ran
(first entry of the return log, and that cache entry). -/
theorem loader_cache_before_factory :
    (∀ (B : Bundle) (n id r : Nat) (st' : RState),
        execModule B n RState.init id = some (r, st') →
        st'.started.Nodup ∧ ∀ i ∈ st'.started, (lookupA st'.cache i).isSome = true) ∧
    execModule cycleBundle 3 RState.init 0 = some (0, cycleFinalSt) ∧
    cycleFinalSt.started = [0, 1] ∧
    cycleFinalSt.rets.head? = some (0, 0) ∧
    lookupA cycleFinalSt.cache 0 = some 0 := by
  refine ⟨?_, by decide, by decide, by decide, by decide⟩
  intro B n id r st' h
  have hg : GoodSt RState.init := ⟨List.nodup_nil, by intro i hi; simp [RState.init] at hi⟩
  exact execModule_good B n hg h

theorem loader_cache_before_factory_witness : cycleFinalSt.started.Nodup :=
  (loader_cache_before_factory.1 cycleBundle 3 0 0 cycleFinalSt
    loader_cache_before_factory.2.1).1

/-- Claim C9: cache entries are never replaced (general part), and in
the concrete run of `replBundle` — module 1's factory reassigns
module.exports — the first execution of module 1 returns the
replacement object 2, the second require of module 1 returns the
original pre-factory object 1 straight from the cache, and the cache
still maps module 1 to object 1, different from the value the first
execution returned. -/
theorem loader_cache_stale_after_reassign :
    (∀ (B : Bundle) (n : Nat) (st : RState) (id r : Nat) (st' : RState),
        execModule B n st id = some (r, st') →
        ∀ k v, lookupA st.cache k = some v → lookupA st'.cache k = some v) ∧
    execModule replBundle 5 RState.init 0 = some (0, replFinalSt) ∧
    replFinalSt.rets = [(1, 2), (1, 1), (0, 0)] ∧
    lookupA replFinalSt.cache 1 = some 1 ∧ (2 : Nat) ≠ 1 := by
  refine ⟨?_, by decide, by decide, by decide, by decide⟩
  intro B n st id r st' h
  exact execModule_mono B n h

theorem loader_cache_stale_after_reassign_witness :
    lookupA stW'.cache 5 = some 7 :=
  (loader_cache_stale_after_reassign.1 replBundle 1 stW 5 7 stW' rfl) 5 7 rfl

/- ----------------------------- claim C4 -------------------------- -/

theorem findAux_none (fs : FS) :
    ∀ (rev : List Str),
      (∀ a : Path, a <+: rev.reverse → fs.isDir (a ++ [nmSeg]) = false) →
      findAux fs rev = none := by
  intro rev
  induction rev with
  | nil =>
    intro h
    have h0 := h [] ⟨[], rfl⟩
    simp at h0
    simp [findAux, h0]
  | cons s rest ih =>
    intro h
    have h0 := h (s :: rest).reverse ⟨[], List.append_nil _⟩
    simp only [findAux]
    rw [h0]
    simp only [Bool.false_eq_true, if_false]
    exact ih (fun a ha => h a (ha.trans ⟨[s], (List.reverse_cons s rest).symm⟩))

/-- Claim C4 (the code diverges here): when no ancestor directory of p,
up to and including the root, contains a node_modules directory, the
source's ancestor walk never exits — the fuelled rendering of the
`while` loop returns none for EVERY fuel (dirname of the root is the
root, so the loop spins there forever), the total account agrees, and
npmModulePath never produces its ModuleNotFoundError for any package
resolved from a file in directory p. -/
theorem npm_walk_never_terminates (fs : FS) (p : Path)
    (h : ∀ a : Path, a <+: p → fs.isDir (a ++ [nmSeg]) = false) :
    (∀ n, npmWalk fs n p = none) ∧ findProjRoot fs p = none ∧
    (∀ pkg x, npmModulePath fs pkg (p ++ [x]) = none) := by
  have hwalk : ∀ (n : Nat) (q : Path),
      (∀ a : Path, a <+: q → fs.isDir (a ++ [nmSeg]) = false) →
      npmWalk fs n q = none := by
    intro n
    induction n with
    | zero => intro q hq; rfl
    | succ n ih =>
      intro q hq
      simp only [npmWalk]
      rw [hq q ⟨[], List.append_nil q⟩]
      simp only [Bool.false_eq_true, if_false]
      exact ih q.dropLast (fun a ha => hq a (ha.trans (pref_dropLast q)))
  have hfind : findProjRoot fs p = none := by
    apply findAux_none
    rw [List.reverse_reverse]
    exact h
  refine ⟨fun n => hwalk n p h, hfind, ?_⟩
  intro pkg x
  have hd : (p ++ [x]).dropLast = p := by simp
  simp only [npmModulePath, hd, hfind]

theorem npm_walk_never_terminates_witness : npmWalk fs4 7 p4 = none :=
  (npm_walk_never_terminates fs4 p4 (by intro a ha; rfl)).1 7

/- ----------------------------- claim C8 -------------------------- -/

/-- Claim C8: every fatal error (a `some (.error e)` build outcome, the
model of `error(...)`'s non-zero process exit) produces no output
artifact; in particular a failing entry resolution and non-empty
type-check diagnostics abort the build before the worklist runs. -/
theorem fatal_error_writes_nothing :
    (∀ (fs : FS) (cwd : Path) (check : Path → List Str) (fuel : Nat)
        (input : Str) (e : BuildErr),
        runBuild fs cwd check fuel input = some (.error e) →
        writtenOutput fs cwd check fuel input = none) ∧
    (∀ (fs : FS) (cwd : Path) (check : Path → List Str) (fuel : Nat)
        (input : Str) (e : BuildErr),
        localModulePath fs cwd input none = .error e →
        runBuild fs cwd check fuel input = some (.error e)) ∧
    (∀ (fs : FS) (cwd : Path) (check : Path → List Str) (fuel : Nat)
        (input : Str) (entry : Path),
        localModulePath fs cwd input none = .ok entry →
        check entry ≠ [] →
        runBuild fs cwd check fuel input = some (.error .typeCheckError)) := by
  refine ⟨?_, ?_, ?_⟩
  · intro fs cwd check fuel input e h
    simp [writtenOutput, h]
  · intro fs cwd check fuel input e h
    simp [runBuild, h]
  · intro fs cwd check fuel input entry h h2
    simp [runBuild, h, h2]

theorem fatal_error_writes_nothing_witness :
    writtenOutput fsQ [] noCheck 10 (("main.ts").data) = none :=
  fatal_error_writes_nothing.1 fsQ [] noCheck 10 (("main.ts").data)
    (.unsupportedImport (("'./b'").data)) rfl

/- ----------------------------- claim C10 ------------------------- -/

/-- Claim C10: when the ancestor walk succeeds and the package has no
sibling `<pkg>.js` file but a manifest whose module-or-main field is
truthy, npmModulePath returns that field resolved against the package
directory with no existence check (general part); concretely, fsM's
manifest names missing.js, resolution succeeds with that nonexistent
path, and the build then fails with the read error for it — not with
ModuleNotFoundError. -/
theorem manifest_main_unchecked :
    (∀ (fs : FS) (pkg : Str) (fromFile root pkgRoot : Path)
        (man : Manifest) (m : Str),
        findProjRoot fs fromFile.dropLast = some root →
        pkgRoot = applySegs (root ++ [nmSeg]) (splitSlash pkg) →
        fs.isFile (appendLast pkgRoot ((".js").data)) = false →
        lookupA fs.manifests (pkgRoot ++ [("package.json").data]) = some man →
        jsOr man.module man.main = some m →
        npmModulePath fs pkg fromFile = some (.ok (resolveSpec pkgRoot m))) ∧
    npmModulePath fsM (("pkg").data) mainTs = some (.ok missingJs) ∧
    fsM.isFile missingJs = false ∧
    runBuild fsM [] noCheck 10 (("main.ts").data) =
      some (.error (.ioError missingJs)) := by
  refine ⟨?_, rfl, rfl, rfl⟩
  intro fs pkg fromFile root pkgRoot man m hroot hpr hjs hman hm
  subst hpr
  have hfile : fs.isFile (applySegs (root ++ [nmSeg]) (splitSlash pkg) ++
      [("package.json").data]) = true := by
    simp [FS.isFile, hman]
  simp only [npmModulePath, hroot, hjs, hfile, hman, hm, Option.getD_some,
    Bool.false_eq_true, if_false, if_true]

theorem manifest_main_unchecked_witness :
    npmModulePath fsM (("pkg").data) [("src").data, ("main.ts").data] =
      some (.ok missingJs) := by
  have h := manifest_main_unchecked.1 fsM (("pkg").data)
    [("src").data, ("main.ts").data]
    [] [("node_modules").data, ("pkg").data] ⟨none, some (("missing.js").data)⟩
    (("missing.js").data) (by decide) (by decide) (by decide) (by decide) (by decide)
  exact h

/- ----------------------------- claim C6 -------------------------- -/

theorem splitSlash_ne_nil (s : Str) : splitSlash s ≠ [] := by
  cases s with
  | nil => simp [splitSlash]
  | cons c r =>
    simp only [splitSlash]
    by_cases hc : c = '/'
    · simp [hc]
    · simp only [if_neg hc]
      cases h : splitSlash r with
      | nil => simp
      | cons s0 ss => simp

theorem getLast?_cons_ne {α : Type} (a : α) (l : List α) (h : l ≠ []) :
    (a :: l).getLast? = l.getLast? := by
  cases l with
  | nil => exact absurd rfl h
  | cons b t => exact List.getLast?_cons_cons

theorem splitSlash_last_suffix :
    ∀ (s : Str), (".ts").data <:+ s →
      ∃ seg, (splitSlash s).getLast? = some seg ∧ (".ts").data <:+ seg := by
  intro s
  induction s with
  | nil =>
    intro h
    have := h.length_le
    simp at this
  | cons c r ih =>
    intro h
    rcases List.suffix_cons_iff.mp h with h1 | h1
    · injection h1.symm with hc hr
      subst hc
      subst hr
      exact ⟨(".ts").data, by decide, ⟨[], rfl⟩⟩
    · obtain ⟨seg, hseg, hsfx⟩ := ih h1
      by_cases hc : c = '/'
      · refine ⟨seg, ?_, hsfx⟩
        simp only [splitSlash, if_pos hc]
        rw [getLast?_cons_ne _ _ (splitSlash_ne_nil r)]
        exact hseg
      · simp only [splitSlash, if_neg hc]
        cases hsp : splitSlash r with
        | nil => exact absurd hsp (splitSlash_ne_nil r)
        | cons s0 ss =>
          rw [hsp] at hseg
          cases ss with
          | nil =>
            simp at hseg
            subst hseg
            obtain ⟨t, ht⟩ := hsfx
            exact ⟨c :: s0, by simp, ⟨c :: t, by rw [List.cons_append, ht]⟩⟩
          | cons s1 ss' =>
            rw [getLast?_cons_ne s0 (s1 :: ss') (by simp)] at hseg
            refine ⟨seg, ?_, hsfx⟩
            rw [getLast?_cons_ne (c :: s0) (s1 :: ss') (by simp)]
            exact hseg

theorem ts_suffix_not_special {seg : Str} (h : (".ts").data <:+ seg) :
    ¬ (seg = [] ∨ seg = ['.']) ∧ seg ≠ ['.', '.'] := by
  have hl := h.length_le
  simp at hl
  constructor
  · intro hor
    rcases hor with h1 | h1 <;> subst h1 <;> simp at hl
  · intro h1
    subst h1
    simp at hl

theorem applySegs_last :
    ∀ (segs : List Str) (p : Path) (seg : Str),
      segs.getLast? = some seg → (".ts").data <:+ seg →
      (applySegs p segs).getLast? = some seg := by
  intro segs
  induction segs with
  | nil => intro p seg hseg hsfx; simp at hseg
  | cons a rest ih =>
    intro p seg hseg hsfx
    cases rest with
    | nil =>
      simp at hseg
      subst hseg
      have hns := ts_suffix_not_special hsfx
      simp only [applySegs, if_neg hns.1, if_neg hns.2]
      exact List.getLast?_concat p
    | cons b rest' =>
      rw [getLast?_cons_ne a (b :: rest') (by simp)] at hseg
      by_cases h1 : a = [] ∨ a = ['.']
      · simp only [applySegs, if_pos h1]
        exact ih p seg hseg hsfx
      · by_cases h2 : a = ['.', '.']
        · simp only [applySegs, if_neg h1, if_pos h2]
          exact ih p.dropLast seg hseg hsfx
        · simp only [applySegs, if_neg h1, if_neg h2]
          exact ih (p ++ [a]) seg hseg hsfx

theorem tsCandidate_no_double (base : Path) (spec : Str)
    (h : (".ts").data <:+ spec) :
    tsCandidate base spec = resolveSpec base spec := by
  obtain ⟨seg, hseg, hsfx⟩ := splitSlash_last_suffix spec h
  have hlast : (resolveSpec base spec).getLast? = some seg := by
    unfold resolveSpec
    by_cases hh : spec.head? = some '/'
    · rw [if_pos hh]
      exact applySegs_last (splitSlash spec) [] seg hseg hsfx
    · rw [if_neg hh]
      exact applySegs_last (splitSlash spec) base seg hseg hsfx
  have he : endsTs (resolveSpec base spec) = true := by
    unfold endsTs
    rw [hlast]
    exact decide_eq_true hsfx
  simp only [tsCandidate, he, if_true]

/-- Claim C6: (i) whenever the '.ts' candidate (extension appended
unless the resolved path already ends in '.ts') names a file, relative
resolution returns it — in particular `./foo` prefers foo.ts over
foo/index.ts even when both exist; (ii) a specifier that already ends
with '.ts' never has the extension appended a second time: its
candidate IS the resolved path; (iii) when the '.ts' candidate is not a
file but the resolved path is a directory containing index.ts,
resolution falls back to that index file. -/
theorem local_resolution_precedence :
    (∀ (fs : FS) (cwd : Path) (spec : Str) (fromFile : Option Path),
        fs.isFile (tsCandidate (resolveBase cwd fromFile) spec) = true →
        localModulePath fs cwd spec fromFile =
          .ok (tsCandidate (resolveBase cwd fromFile) spec)) ∧
    (∀ (base : Path) (spec : Str), (".ts").data <:+ spec →
        tsCandidate base spec = resolveSpec base spec) ∧
    (∀ (fs : FS) (cwd : Path) (spec : Str) (fromFile : Option Path),
        fs.isFile (tsCandidate (resolveBase cwd fromFile) spec) = false →
        fs.isDir (resolveSpec (resolveBase cwd fromFile) spec) = true →
        fs.isFile (resolveSpec (resolveBase cwd fromFile) spec ++ [tsIndex]) = true →
        localModulePath fs cwd spec fromFile =
          .ok (resolveSpec (resolveBase cwd fromFile) spec ++ [tsIndex])) := by
  refine ⟨?_, fun base spec h => tsCandidate_no_double base spec h, ?_⟩
  · intro fs cwd spec fromFile h
    simp only [localModulePath, h, if_true]
  · intro fs cwd spec fromFile h1 h2 h3
    simp only [localModulePath, h1, h2, h3, Bool.false_eq_true, if_false,
      Bool.and_self, if_true]

theorem local_resolution_precedence_witness :
    localModulePath fs6 [] (("./foo").data)
      (some [("src").data, ("main.ts").data]) = .ok fooTs := by
  have h := local_resolution_precedence.1 fs6 []
    (("./foo").data) (some [("src").data, ("main.ts").data]) (by decide)
  exact h

/- ----------------------------- claim C5 -------------------------- -/

theorem scanNodes_append (fs : FS) (cwd : Path) (file : Path) :
    ∀ (pre rest : List Node) (deps : List (Str × Nat)) (st : BState),
      scanNodes fs cwd file (pre ++ rest) deps st =
        match scanNodes fs cwd file pre deps st with
        | some (.ok (d, s)) => scanNodes fs cwd file rest d s
        | some (.error e) => some (.error e)
        | none => none := by
  intro pre
  induction pre with
  | nil => intro rest deps st; simp [scanNodes]
  | cons nd t ih =>
    intro rest deps st
    cases nd with
    | other =>
      simp only [List.cons_append, scanNodes]
      exact ih rest deps st
    | importDecl text =>
      simp only [List.cons_append, scanNodes]
      cases hj : jsonStr text with
      | none => simp only [hj]
      | some dep =>
        simp only [hj]
        cases hr : resolveDep fs cwd dep file with
        | none => simp only [hr]
        | some res =>
          cases res with
          | error e => simp only [hr]
          | ok depPath =>
            simp only [hr]
            cases hl : lookupA st.moduleToId depPath with
            | some depId =>
              simp only [hl]
              exact ih rest (mapSet deps dep depId) st
            | none =>
              simp only [hl]
              exact ih rest (mapSet deps dep (st.moduleId + 1)) _

theorem localModulePath_err {fs : FS} {cwd : Path} {path : Str}
    {fromFile : Option Path} {e : BuildErr}
    (h : localModulePath fs cwd path fromFile = .error e) :
    e = .moduleNotFound path := by
  simp only [localModulePath] at h
  split at h
  · exact Except.noConfusion h
  · split at h
    · exact Except.noConfusion h
    · injection h with h1
      exact h1.symm

theorem npmModulePath_err {fs : FS} {pkg : Str} {fromFile : Path} {e : BuildErr}
    (h : npmModulePath fs pkg fromFile = some (.error e)) :
    e = .moduleNotFound pkg := by
  unfold npmModulePath at h
  cases hf : findProjRoot fs fromFile.dropLast with
  | none =>
    simp only [hf] at h
    exact Option.noConfusion h
  | some root =>
    simp only [hf] at h
    split at h
    · simp at h
    · split at h
      · simp at h
      · split at h
        · simp at h
        · simp at h
          exact h.symm

theorem resolveDep_err {fs : FS} {cwd : Path} {dep : Str} {file : Path}
    {e : BuildErr} (h : resolveDep fs cwd dep file = some (.error e)) :
    ∃ s, e = .moduleNotFound s := by
  unfold resolveDep at h
  split at h
  · injection h with h1
    exact ⟨dep, localModulePath_err h1⟩
  · exact ⟨dep, npmModulePath_err h⟩

theorem scanNodes_err (fs : FS) (cwd : Path) (file : Path) :
    ∀ (nodes : List Node) (deps : List (Str × Nat)) (st : BState) (t : Str),
      scanNodes fs cwd file nodes deps st =
        some (.error (.unsupportedImport t)) →
      jsonStr t = none ∧ Node.importDecl t ∈ nodes := by
  intro nodes
  induction nodes with
  | nil => intro deps st t h; simp [scanNodes] at h
  | cons nd rest ih =>
    intro deps st t h
    cases nd with
    | other =>
      simp only [scanNodes] at h
      obtain ⟨h1, h2⟩ := ih _ _ _ h
      exact ⟨h1, List.mem_cons_of_mem _ h2⟩
    | importDecl text =>
      simp only [scanNodes] at h
      cases hj : jsonStr text with
      | none =>
        simp only [hj] at h
        injection h with h1
        injection h1 with h2
        injection h2 with h3
        subst h3
        exact ⟨hj, List.mem_cons_self _ _⟩
      | some dep =>
        simp only [hj] at h
        cases hr : resolveDep fs cwd dep file with
        | none =>
          simp only [hr] at h
          exact Option.noConfusion h
        | some res =>
          cases res with
          | error e =>
            simp only [hr] at h
            injection h with h1
            injection h1 with h2
            obtain ⟨s, hs⟩ := resolveDep_err hr
            rw [hs] at h2
            exact BuildErr.noConfusion h2
          | ok depPath =>
            simp only [hr] at h
            cases hl : lookupA st.moduleToId depPath with
            | some depId =>
              simp only [hl] at h
              obtain ⟨h1, h2⟩ := ih _ _ _ h
              exact ⟨h1, List.mem_cons_of_mem _ h2⟩
            | none =>
              simp only [hl] at h
              obtain ⟨h1, h2⟩ := ih _ _ _ h
              exact ⟨h1, List.mem_cons_of_mem _ h2⟩

theorem compileFile_err {fs : FS} {cwd : Path} {st : BState} {file : Path}
    {t : Str}
    (h : compileFile fs cwd st file = some (.error (.unsupportedImport t))) :
    jsonStr t = none ∧
    ∃ src, lookupA fs.files file = some src ∧ Node.importDecl t ∈ src.nodes := by
  unfold compileFile at h
  cases hf : lookupA fs.files file with
  | none =>
    simp only [hf] at h
    injection h with h1
    injection h1 with h2
    exact BuildErr.noConfusion h2
  | some src =>
    simp only [hf] at h
    cases hs : scanNodes fs cwd file src.nodes [] st with
    | none =>
      simp only [hs] at h
      exact Option.noConfusion h
    | some res =>
      cases res with
      | error e =>
        simp only [hs] at h
        injection h with h1
        injection h1 with h2
        subst h2
        obtain ⟨h1, h2⟩ := scanNodes_err fs cwd file src.nodes [] st t hs
        exact ⟨h1, src, rfl, h2⟩
      | ok pr =>
        obtain ⟨deps, st'⟩ := pr
        simp only [hs] at h
        injection h with h1
        exact Except.noConfusion h1

theorem buildLoop_err_unsupported (fs : FS) (cwd : Path) :
    ∀ (fuel : Nat) (st : BState) (acc : List Module) (t : Str),
      buildLoop fs cwd fuel st acc = some (.error (.unsupportedImport t)) →
      jsonStr t = none ∧
      ∃ p src, lookupA fs.files p = some src ∧ Node.importDecl t ∈ src.nodes := by
  intro fuel
  induction fuel with
  | zero => intro st acc t h; exact Option.noConfusion h
  | succ fuel ih =>
    intro st acc t h
    simp only [buildLoop] at h
    cases hf : st.files with
    | nil =>
      simp only [hf] at h
      injection h with h1
      exact Except.noConfusion h1
    | cons f rest =>
      simp only [hf] at h
      cases hc : compileFile fs cwd ⟨st.moduleId, st.moduleToId, rest⟩ f with
      | none =>
        simp only [hc] at h
        exact Option.noConfusion h
      | some res =>
        cases res with
        | error e =>
          simp only [hc] at h
          injection h with h1
          injection h1 with h2
          subst h2
          obtain ⟨h1, src, hsrc, hmem⟩ := compileFile_err hc
          exact ⟨h1, f, src, hsrc, hmem⟩
        | ok pr =>
          obtain ⟨m, st'⟩ := pr
          simp only [hc] at h
          exact ih st' (acc ++ [m]) t h

theorem runBuild_err_unsupported {fs : FS} {cwd : Path}
    {check : Path → List Str} {fuel : Nat} {input t : Str}
    (h : runBuild fs cwd check fuel input =
      some (.error (.unsupportedImport t))) :
    jsonStr t = none ∧
    ∃ p src, lookupA fs.files p = some src ∧ Node.importDecl t ∈ src.nodes := by
  unfold runBuild at h
  cases he : localModulePath fs cwd input none with
  | error e =>
    simp only [he] at h
    injection h with h1
    injection h1 with h2
    have h3 := localModulePath_err he
    rw [h3] at h2
    exact BuildErr.noConfusion h2
  | ok entry =>
    simp only [he] at h
    split at h
    · injection h with h1
      injection h1 with h2
      exact BuildErr.noConfusion h2
    · exact buildLoop_err_unsupported fs cwd fuel _ [] t h

/-- Claim C5 (corrected): during the graph scan, an import whose
specifier text does not parse as one double-quoted JSON string is a
fatal failure the moment it is reached — this covers every computed
(non-literal) specifier; and conversely every such fatal failure of a
build stems from an import whose text does not JSON-parse. The original
claim's companion — that literal-string specifiers never trigger the
failure — is refuted by `single_quoted_specifier_fails`: the code
extracts the specifier with JSON.parse, so a single-quoted string
literal also aborts the build. -/
theorem non_json_specifier_unsupported :
    (∀ (fs : FS) (cwd file : Path) (pre post : List Node) (text : Str)
        (deps deps1 : List (Str × Nat)) (st st1 : BState),
        jsonStr text = none →
        scanNodes fs cwd file pre deps st = some (.ok (deps1, st1)) →
        scanNodes fs cwd file (pre ++ Node.importDecl text :: post) deps st =
          some (.error (.unsupportedImport text))) ∧
    (∀ (fs : FS) (cwd : Path) (check : Path → List Str) (fuel : Nat)
        (input t : Str),
        runBuild fs cwd check fuel input =
          some (.error (.unsupportedImport t)) →
        jsonStr t = none ∧
        ∃ p src, lookupA fs.files p = some src ∧
          Node.importDecl t ∈ src.nodes) := by
  constructor
  · intro fs cwd file pre post text deps deps1 st st1 hj hpre
    rw [scanNodes_append]
    simp only [hpre]
    simp only [scanNodes, hj]
  · intro fs cwd check fuel input t h
    exact runBuild_err_unsupported h

/-- Claim C5 counterexample: the entry's sole import is written
`import ... from './b'` — its specifier IS a literal string — yet the
build aborts with the unsupported-import failure, because the source
strips quotes with JSON.parse and JSON admits only double quotes. The
second conjunct shows the same specifier in double-quoted form parses. -/
theorem single_quoted_specifier_fails :
    runBuild fsQ [] noCheck 10 (("main.ts").data) =
      some (.error (.unsupportedImport (("'./b'").data))) ∧
    jsonStr (("\"./b\"").data) = some (("./b").data) := ⟨rfl, rfl⟩

theorem non_json_specifier_unsupported_witness :
    scanNodes fsQ [] mainTs [Node.importDecl (("'./b'").data)] [] st0A =
      some (.error (.unsupportedImport (("'./b'").data))) := by
  have h := non_json_specifier_unsupported.1 fsQ [] mainTs [] []
    (("'./b'").data) [] [] st0A st0A rfl rfl
  simpa using h

/- ----------------------- claims C1, C2, C7 ----------------------- -/

theorem lookupA_at_position {l : List (Path × Nat)}
    (hids : l.map Prod.snd = List.range l.length)
    (hnd : (l.map Prod.fst).Nodup)
    {pre : List Path} {f : Path} {post : List Path}
    (horder : l.map Prod.fst = pre ++ f :: post) :
    lookupA l f = some pre.length := by
  have hlen : pre.length < l.length := by
    have h1 := congrArg List.length horder
    simp at h1
    omega
  have hfst : (l.map Prod.fst)[pre.length]? = some f := by
    rw [horder, List.getElem?_append_right (Nat.le_refl pre.length)]
    simp
  have hsnd : (l.map Prod.snd)[pre.length]? = some pre.length := by
    rw [hids]
    exact List.getElem?_range hlen
  rw [List.getElem?_map] at hfst
  rw [List.getElem?_map] at hsnd
  cases hx : l[pre.length]? with
  | none =>
    rw [hx] at hfst
    exact Option.noConfusion hfst
  | some pr =>
    rw [hx] at hfst hsnd
    simp at hfst hsnd
    have hmem : pr ∈ l := by
      obtain ⟨hb, hbe⟩ := List.getElem?_eq_some.mp hx
      exact hbe ▸ List.getElem_mem hb
    have hpr : pr = (f, pre.length) := by
      obtain ⟨a, b⟩ := pr
      simp at hfst hsnd
      rw [hfst, hsnd]
    rw [hpr] at hmem
    exact lookupA_of_mem_nodup hnd hmem

theorem ids_range_injective {reg : List (Path × Nat)}
    (hids : reg.map Prod.snd = List.range reg.length)
    {p p' : Path} {i : Nat} (h1 : lookupA reg p = some i)
    (h2 : lookupA reg p' = some i) : p = p' := by
  have key : ∀ {q : Path}, (q, i) ∈ reg → reg[i]? = some (q, i) := by
    intro q hm
    obtain ⟨k, hk, hkeq⟩ := List.getElem_of_mem hm
    have h3 : reg[k]? = some (q, i) := by
      rw [List.getElem?_eq_getElem hk, hkeq]
    have h4 : (reg.map Prod.snd)[k]? = some i := by
      rw [List.getElem?_map, h3]
      rfl
    have h5 : (List.range reg.length)[k]? = some i := by
      rw [← hids]
      exact h4
    have h6 : k = i := by
      rw [List.getElem?_range hk] at h5
      exact Option.some.inj h5
    rw [h6] at h3
    exact h3
  have e1 := key (lookupA_mem h1)
  have e2 := key (lookupA_mem h2)
  rw [e1] at e2
  injection e2 with e3
  exact congrArg Prod.fst e3

/-- The main scan lemma: a successful scan only appends to the registry
and the worklist (in lockstep), preserves the identity-counting
invariants, registers only import targets of the scanned nodes,
registers every import target of the scanned nodes, and records in the
dependency map exactly the resolved identities as found in the final
registry. -/
theorem scanNodes_ok (fs : FS) (cwd : Path) (file : Path) :
    ∀ (nodes : List Node) (deps deps' : List (Str × Nat)) (st st' : BState),
      scanNodes fs cwd file nodes deps st = some (.ok (deps', st')) →
      st.moduleToId.map Prod.snd = List.range st.moduleToId.length →
      (st.moduleToId.map Prod.fst).Nodup →
      st.moduleId + 1 = st.moduleToId.length →
      ∃ new, st'.moduleToId = st.moduleToId ++ new ∧
        st'.files = st.files ++ new.map Prod.fst ∧
        st'.moduleToId.map Prod.snd = List.range st'.moduleToId.length ∧
        (st'.moduleToId.map Prod.fst).Nodup ∧
        st'.moduleId + 1 = st'.moduleToId.length ∧
        (∀ pq ∈ new, ∃ text dep, Node.importDecl text ∈ nodes ∧
          jsonStr text = some dep ∧
          resolveDep fs cwd dep file = some (.ok pq.1)) ∧
        (∀ text, Node.importDecl text ∈ nodes →
          ∃ dep q, jsonStr text = some dep ∧
            resolveDep fs cwd dep file = some (.ok q) ∧
            q ∈ st'.moduleToId.map Prod.fst) ∧
        (∀ s i, (s, i) ∈ deps' → (s, i) ∈ deps ∨
          ∃ q, resolveDep fs cwd s file = some (.ok q) ∧
            lookupA st'.moduleToId q = some i) := by
  intro nodes
  induction nodes with
  | nil =>
    intro deps deps' st st' h hids hnd hcnt
    simp [scanNodes] at h
    obtain ⟨h1, h2⟩ := h
    subst h1
    subst h2
    refine ⟨[], by simp, by simp, hids, hnd, hcnt, by simp, by simp, ?_⟩
    intro s i hsi
    exact Or.inl hsi
  | cons nd rest ih =>
    intro deps deps' st st' h hids hnd hcnt
    cases nd with
    | other =>
      simp only [scanNodes] at h
      obtain ⟨new, h1, h2, h3, h4, h5, h6, h7, h8⟩ := ih _ _ _ _ h hids hnd hcnt
      refine ⟨new, h1, h2, h3, h4, h5, ?_, ?_, h8⟩
      · intro pq hpq
        obtain ⟨text, dep, hmem, hj, hr⟩ := h6 pq hpq
        exact ⟨text, dep, List.mem_cons_of_mem _ hmem, hj, hr⟩
      · intro text hmem
        rcases List.mem_cons.mp hmem with h9 | h9
        · exact Node.noConfusion h9
        · exact h7 text h9
    | importDecl text =>
      simp only [scanNodes] at h
      cases hj : jsonStr text with
      | none =>
        simp only [hj] at h
        injection h with h1
        exact Except.noConfusion h1
      | some dep =>
        simp only [hj] at h
        cases hr : resolveDep fs cwd dep file with
        | none =>
          simp only [hr] at h
          exact Option.noConfusion h
        | some res =>
          cases res with
          | error e =>
            simp only [hr] at h
            injection h with h1
            exact Except.noConfusion h1
          | ok depPath =>
            simp only [hr] at h
            cases hl : lookupA st.moduleToId depPath with
            | some depId =>
              simp only [hl] at h
              obtain ⟨new, h1, h2, h3, h4, h5, h6, h7, h8⟩ :=
                ih _ _ _ _ h hids hnd hcnt
              refine ⟨new, h1, h2, h3, h4, h5, ?_, ?_, ?_⟩
              · intro pq hpq
                obtain ⟨t2, d2, hmem, hj2, hr2⟩ := h6 pq hpq
                exact ⟨t2, d2, List.mem_cons_of_mem _ hmem, hj2, hr2⟩
              · intro t2 hmem
                rcases List.mem_cons.mp hmem with h9 | h9
                · injection h9 with h10
                  subst h10
                  refine ⟨dep, depPath, hj, hr, ?_⟩
                  rw [h1, List.map_append]
                  exact List.mem_append_left _
                    (List.mem_map.mpr ⟨(depPath, depId), lookupA_mem hl, rfl⟩)
                · exact h7 t2 h9
              · intro s i hsi
                rcases h8 s i hsi with h9 | h9
                · rcases mem_mapSet h9 with h10 | h10
                  · exact Or.inl h10
                  · obtain ⟨h11, h12⟩ := h10
                    subst h11
                    subst h12
                    refine Or.inr ⟨depPath, hr, ?_⟩
                    rw [h1]
                    exact lookupA_append_some _ hl
                · exact Or.inr h9
            | none =>
              simp only [hl] at h
              have hids2 : (st.moduleToId ++
                  [(depPath, st.moduleId + 1)]).map Prod.snd =
                  List.range (st.moduleToId ++
                    [(depPath, st.moduleId + 1)]).length := by
                rw [List.map_append, hids, List.length_append]
                simp [hcnt, List.range_succ]
              have hnd2 : ((st.moduleToId ++
                  [(depPath, st.moduleId + 1)]).map Prod.fst).Nodup := by
                rw [List.map_append]
                refine hnd.append (List.nodup_singleton _) ?_
                intro a ha hb
                simp at hb
                subst hb
                exact (lookupA_eq_none_iff _ _).mp hl ha
              have hcnt2 : (st.moduleId + 1) + 1 =
                  (st.moduleToId ++ [(depPath, st.moduleId + 1)]).length := by
                rw [List.length_append]
                simp
                omega
              obtain ⟨new, h1, h2, h3, h4, h5, h6, h7, h8⟩ :=
                ih _ _ _ _ h hids2 hnd2 hcnt2
              refine ⟨(depPath, st.moduleId + 1) :: new, ?_, ?_, h3, h4, h5,
                ?_, ?_, ?_⟩
              · rw [h1, List.append_assoc]
                rfl
              · rw [h2]
                simp
              · intro pq hpq
                rcases List.mem_cons.mp hpq with h9 | h9
                · subst h9
                  exact ⟨text, dep, List.mem_cons_self _ _, hj, hr⟩
                · obtain ⟨t2, d2, hmem, hj2, hr2⟩ := h6 pq h9
                  exact ⟨t2, d2, List.mem_cons_of_mem _ hmem, hj2, hr2⟩
              · intro t2 hmem
                rcases List.mem_cons.mp hmem with h9 | h9
                · injection h9 with h10
                  subst h10
                  refine ⟨dep, depPath, hj, hr, ?_⟩
                  rw [h1, List.map_append, List.map_append]
                  refine List.mem_append_left _ (List.mem_append_right _ ?_)
                  simp
                · exact h7 t2 h9
              · intro s i hsi
                rcases h8 s i hsi with h9 | h9
                · rcases mem_mapSet h9 with h10 | h10
                  · exact Or.inl h10
                  · obtain ⟨h11, h12⟩ := h10
                    subst h11
                    subst h12
                    refine Or.inr ⟨depPath, hr, ?_⟩
                    rw [h1]
                    refine lookupA_append_some _ ?_
                    rw [lookupA_append_none _ hl]
                    simp [lookupA]
                · exact Or.inr h9

theorem compileFile_ok_inv {fs : FS} {cwd : Path} {st : BState} {file : Path}
    {m : Module} {st' : BState}
    (h : compileFile fs cwd st file = some (.ok (m, st'))) :
    ∃ src, lookupA fs.files file = some src ∧
      scanNodes fs cwd file src.nodes [] st = some (.ok (m.deps, st')) ∧
      m.id = (lookupA st.moduleToId file).getD 0 ∧ m.file = file ∧
      m.transpiled = src.transpiled := by
  unfold compileFile at h
  cases hf : lookupA fs.files file with
  | none =>
    simp only [hf] at h
    injection h with h1
    exact Except.noConfusion h1
  | some src =>
    simp only [hf] at h
    cases hs : scanNodes fs cwd file src.nodes [] st with
    | none =>
      simp only [hs] at h
      exact Option.noConfusion h
    | some res =>
      cases res with
      | error e =>
        simp only [hs] at h
        injection h with h1
        exact Except.noConfusion h1
      | ok pr =>
        obtain ⟨deps, st2⟩ := pr
        simp only [hs] at h
        injection h with h1
        injection h1 with h2
        injection h2 with h3 h4
        subst h4
        subst h3
        exact ⟨src, rfl, hs, rfl, rfl, rfl⟩

/-- The worklist-loop invariant is maintained and yields, on success,
the full description of the final module list and registry. -/
theorem buildLoop_ok (fs : FS) (cwd : Path) (entry : Path) :
    ∀ (fuel : Nat) (st : BState) (acc : List Module) (processed : List Path)
      (mods : List Module) (reg : List (Path × Nat)),
      buildLoop fs cwd fuel st acc = some (.ok (mods, reg)) →
      Inv fs cwd entry processed st →
      AccInv fs cwd acc processed st →
      (∃ ext, reg = st.moduleToId ++ ext) ∧
      reg.map Prod.snd = List.range reg.length ∧
      (reg.map Prod.fst).Nodup ∧
      mods.map Module.file = reg.map Prod.fst ∧
      mods.map Module.id = List.range mods.length ∧
      (∀ p ∈ reg.map Prod.fst, Reaches fs cwd entry p) ∧
      (∀ p ∈ reg.map Prod.fst, ∀ q, ImportEdge fs cwd p q →
        q ∈ reg.map Prod.fst) ∧
      (∀ m ∈ mods, ∀ s i, (s, i) ∈ m.deps →
        ∃ q, resolveDep fs cwd s m.file = some (.ok q) ∧
          lookupA reg q = some i) ∧
      (∀ m ∈ mods, ∃ src, lookupA fs.files m.file = some src ∧
        m.transpiled = src.transpiled) := by
  intro fuel
  induction fuel with
  | zero =>
    intro st acc processed mods reg h hInv hAcc
    exact Option.noConfusion h
  | succ fuel ih =>
    intro st acc processed mods reg h hInv hAcc
    simp only [buildLoop] at h
    cases hf : st.files with
    | nil =>
      simp only [hf] at h
      simp at h
      obtain ⟨h1, h2⟩ := h
      subst h1
      subst h2
      have hproc : processed = st.moduleToId.map Prod.fst := by
        have := hInv.order
        rw [hf] at this
        simpa using this
      refine ⟨⟨[], by simp⟩, hInv.ids, hInv.nodupKeys, ?_, hAcc.idsEq,
        hInv.reach, ?_, hAcc.depsOk, hAcc.bodyOk⟩
      · rw [hAcc.filesEq, hproc]
      · intro p hp q hedge
        exact hInv.closed p (hproc ▸ hp) q hedge
    | cons f rest =>
      simp only [hf] at h
      cases hcf : compileFile fs cwd ⟨st.moduleId, st.moduleToId, rest⟩ f with
      | none =>
        simp only [hcf] at h
        exact Option.noConfusion h
      | some res =>
        cases res with
        | error e =>
          simp only [hcf] at h
          injection h with h1
          exact Except.noConfusion h1
        | ok pr =>
          obtain ⟨m, st'⟩ := pr
          simp only [hcf] at h
          obtain ⟨src, hsrc, hscan, hmid, hmfile, hmtrans⟩ :=
            compileFile_ok_inv hcf
          obtain ⟨new, k1, k2, k3, k4, k5, k6, k7, k8⟩ :=
            scanNodes_ok fs cwd f src.nodes [] m.deps
              ⟨st.moduleId, st.moduleToId, rest⟩ st' hscan
              hInv.ids hInv.nodupKeys hInv.counter
          have horder : st.moduleToId.map Prod.fst = processed ++ f :: rest := by
            have := hInv.order
            rw [hf] at this
            exact this.symm
          have hfmem : f ∈ st.moduleToId.map Prod.fst := by
            rw [horder]
            exact List.mem_append_right _ (List.mem_cons_self _ _)
          have hreachf : Reaches fs cwd entry f := hInv.reach f hfmem
          have hedgef : ∀ pq ∈ new, ImportEdge fs cwd f pq.1 := by
            intro pq hpq
            obtain ⟨text, dep, hmem, hjson, hres⟩ := k6 pq hpq
            exact ⟨src, text, dep, hsrc, hmem, hjson, hres⟩
          have hInv' : Inv fs cwd entry (processed ++ [f]) st' := by
            constructor
            · exact k3
            · exact k4
            · exact k5
            · rw [k2, k1]
              show processed ++ [f] ++ (rest ++ new.map Prod.fst) =
                (st.moduleToId ++ new).map Prod.fst
              rw [List.map_append]
              rw [horder]
              simp
            · intro p hp
              rw [k1, List.map_append] at hp
              rcases List.mem_append.mp hp with h9 | h9
              · exact hInv.reach p h9
              · obtain ⟨pq, hpq, hpq1⟩ := List.mem_map.mp h9
                exact hpq1 ▸ Reaches.step hreachf (hedgef pq hpq)
            · intro p hp q hedge
              rcases List.mem_append.mp hp with h9 | h9
              · have := hInv.closed p h9 q hedge
                rw [k1, List.map_append]
                exact List.mem_append_left _ this
              · simp at h9
                subst h9
                obtain ⟨src', text, dep, hsrc', hmem, hjson, hres⟩ := hedge
                have hss : src' = src := by
                  rw [hsrc] at hsrc'
                  injection hsrc' with hv
                  exact hv.symm
                subst hss
                obtain ⟨dep', q', hj', hr', hq'⟩ := k7 text hmem
                rw [hjson] at hj'
                injection hj' with hd
                subst hd
                rw [hres] at hr'
                injection hr' with hr2
                injection hr2 with hr3
                subst hr3
                exact hq'
          have hlen : acc.length = processed.length := by
            have := congrArg List.length hAcc.filesEq
            simpa using this
          have hmidval : m.id = acc.length := by
            rw [hmid]
            show (lookupA st.moduleToId f).getD 0 = acc.length
            rw [lookupA_at_position hInv.ids hInv.nodupKeys horder]
            simp [hlen]
          have hAcc' : AccInv fs cwd (acc ++ [m]) (processed ++ [f]) st' := by
            constructor
            · rw [List.map_append, hAcc.filesEq]
              simp [hmfile]
            · rw [List.map_append, hAcc.idsEq, List.length_append]
              simp [hmidval, List.range_succ]
            · intro m' hm' s i hsi
              rcases List.mem_append.mp hm' with h9 | h9
              · obtain ⟨q, hr, hl⟩ := hAcc.depsOk m' h9 s i hsi
                refine ⟨q, hr, ?_⟩
                rw [k1]
                exact lookupA_append_some _ hl
              · simp at h9
                subst h9
                rcases k8 s i hsi with h10 | h10
                · simp at h10
                · obtain ⟨q, hr, hl⟩ := h10
                  rw [hmfile]
                  exact ⟨q, hr, hl⟩
            · intro m' hm'
              rcases List.mem_append.mp hm' with h9 | h9
              · exact hAcc.bodyOk m' h9
              · simp at h9
                subst h9
                rw [hmfile]
                exact ⟨src, hsrc, hmtrans⟩
          obtain ⟨⟨ext, hext⟩, r2, r3, r4, r5, r6, r7, r8, r9⟩ :=
            ih st' (acc ++ [m]) (processed ++ [f]) mods reg h hInv' hAcc'
          refine ⟨⟨new ++ ext, ?_⟩, r2, r3, r4, r5, r6, r7, r8, r9⟩
          rw [hext, k1]
          rw [List.append_assoc]

/-- The outcome of every successful build. -/
theorem runBuild_ok {fs : FS} {cwd : Path} {check : Path → List Str}
    {fuel : Nat} {input : Str} {entry : Path} {mods : List Module}
    {reg : List (Path × Nat)}
    (he : localModulePath fs cwd input none = .ok entry)
    (h : runBuild fs cwd check fuel input = some (.ok (mods, reg))) :
    lookupA reg entry = some 0 ∧
    reg.map Prod.snd = List.range reg.length ∧
    (reg.map Prod.fst).Nodup ∧
    mods.map Module.file = reg.map Prod.fst ∧
    mods.map Module.id = List.range mods.length ∧
    (∀ p : Path, p ∈ reg.map Prod.fst ↔ Reaches fs cwd entry p) ∧
    (∀ m ∈ mods, ∀ s i, (s, i) ∈ m.deps →
      ∃ q, resolveDep fs cwd s m.file = some (.ok q) ∧
        lookupA reg q = some i) ∧
    (∀ m ∈ mods, ∃ src, lookupA fs.files m.file = some src ∧
      m.transpiled = src.transpiled) := by
  unfold runBuild at h
  simp only [he] at h
  split at h
  · injection h with h1
    exact Except.noConfusion h1
  · have hInv0 : Inv fs cwd entry [] ⟨0, [(entry, 0)], [entry]⟩ := by
      constructor
      · simp [List.range_succ]
      · simp
      · rfl
      · rfl
      · intro p hp
        simp at hp
        subst hp
        exact Reaches.refl
      · intro p hp
        simp at hp
    have hAcc0 : AccInv fs cwd [] [] ⟨0, [(entry, 0)], [entry]⟩ := by
      constructor <;> simp
    obtain ⟨⟨ext, hext⟩, hids, hnd, hfiles, hmids, hreach, hclosed, hdeps,
      hbody⟩ := buildLoop_ok fs cwd entry fuel _ [] [] mods reg h hInv0 hAcc0
    have hentry : lookupA reg entry = some 0 := by
      rw [hext]
      simp [lookupA]
    have hentrymem : entry ∈ reg.map Prod.fst := by
      rw [hext]
      simp
    refine ⟨hentry, hids, hnd, hfiles, hmids, ?_, hdeps, hbody⟩
    intro p
    constructor
    · exact hreach p
    · intro hr
      induction hr with
      | refl => exact hentrymem
      | step hr' hedge ihr => exact hclosed _ ihr _ hedge

/-- Claim C1: on every successful build the set of emitted module files
is exactly the transitive closure of resolved import edges from the
entry file — each reachable file appears exactly once (the file list is
duplicate-free), and nothing unreachable appears. -/
theorem bundle_modules_eq_reachable (fs : FS) (cwd : Path)
    (check : Path → List Str) (fuel : Nat) (input : Str) (entry : Path)
    (mods : List Module) (reg : List (Path × Nat))
    (he : localModulePath fs cwd input none = .ok entry)
    (h : runBuild fs cwd check fuel input = some (.ok (mods, reg))) :
    (mods.map Module.file).Nodup ∧
    ∀ p : Path, p ∈ mods.map Module.file ↔ Reaches fs cwd entry p := by
  obtain ⟨-, -, hnd, hfiles, -, hiff, -, -⟩ := runBuild_ok he h
  constructor
  · rw [hfiles]
    exact hnd
  · intro p
    rw [hfiles]
    exact hiff p

theorem bundle_modules_eq_reachable_witness : Reaches fsA [] mainTs bTs :=
  ((bundle_modules_eq_reachable fsA [] noCheck 10 (("main.ts").data) mainTs
    modsA regA rfl rfl).2 bTs).mp (by decide)

/-- Claim C2: on every successful build the registry is a bijection
between paths and the identities 0..n-1: the entry has identity 0, the
identities in insertion order are exactly 0,1,2,... with none skipped
or reused, distinct paths never share an identity, and every recorded
dependency identity is the registry identity of the specifier's
resolved path — so two edges resolving to the same path get the same
identity. -/
theorem registry_bijection (fs : FS) (cwd : Path) (check : Path → List Str)
    (fuel : Nat) (input : Str) (entry : Path) (mods : List Module)
    (reg : List (Path × Nat))
    (he : localModulePath fs cwd input none = .ok entry)
    (h : runBuild fs cwd check fuel input = some (.ok (mods, reg))) :
    lookupA reg entry = some 0 ∧
    reg.map Prod.snd = List.range reg.length ∧
    (reg.map Prod.fst).Nodup ∧
    (∀ (p p' : Path) (i : Nat), lookupA reg p = some i →
      lookupA reg p' = some i → p = p') ∧
    (∀ m ∈ mods, ∀ s i, (s, i) ∈ m.deps →
      ∃ q, resolveDep fs cwd s m.file = some (.ok q) ∧
        lookupA reg q = some i) := by
  obtain ⟨hentry, hids, hnd, -, -, -, hdeps, -⟩ := runBuild_ok he h
  refine ⟨hentry, hids, hnd, ?_, hdeps⟩
  intro p p' i h1 h2
  exact ids_range_injective hids h1 h2

theorem registry_bijection_witness : lookupA regA mainTs = some 0 :=
  (registry_bijection fsA [] noCheck 10 (("main.ts").data) mainTs
    modsA regA rfl rfl).1

/-- Claim C7: on every successful build the module list follows the
first-in-first-out discovery order (its files spell out the registry in
insertion order, so identities ascend 0,1,2,...), and the generated
module table has exactly one entry per discovered module, keyed by its
identity, in ascending identity order, holding the module's transpiled
body and dependency table. -/
theorem module_table_identity_order (fs : FS) (cwd : Path)
    (check : Path → List Str) (fuel : Nat) (input : Str) (entry : Path)
    (mods : List Module) (reg : List (Path × Nat))
    (he : localModulePath fs cwd input none = .ok entry)
    (h : runBuild fs cwd check fuel input = some (.ok (mods, reg))) :
    mods.map Module.file = reg.map Prod.fst ∧
    mods.map Module.id = List.range mods.length ∧
    (moduleTable mods).map (fun en => en.1) =
      List.range (moduleTable mods).length ∧
    mods.length = reg.length ∧
    (∀ m ∈ mods, (m.id, m.transpiled, m.deps) ∈ moduleTable mods ∧
      ∃ src, lookupA fs.files m.file = some src ∧
        m.transpiled = src.transpiled) := by
  obtain ⟨-, -, -, hfiles, hmids, -, -, hbody⟩ := runBuild_ok he h
  refine ⟨hfiles, hmids, ?_, ?_, ?_⟩
  · unfold moduleTable
    rw [List.map_map, List.length_map]
    exact hmids
  · have := congrArg List.length hfiles
    simpa using this
  · intro m hm
    exact ⟨List.mem_map.mpr ⟨m, hm, rfl⟩, hbody m hm⟩

theorem module_table_identity_order_witness :
    modsA.map Module.id = List.range modsA.length :=
  (module_table_identity_order fsA [] noCheck 10 (("main.ts").data) mainTs
    modsA regA rfl rfl).2.1

end Kidnap
